import Mathlib

/-
Verification of the helper functions of the NPSAT repository
(src/myheaders/helper_functions.h) against its specification.

The embedding is shallow: each C++ function is translated into a Lean
definition over exact arithmetic (rationals for the inverse-mapping
resolver, reals for the geometric primitives, since the latter use square
roots).  External capabilities are parameters:

* the deal.II forward mapping inversion transform_real_to_unit_cell is a
  parameter of type PtQ dim -> Option (PtQ dim), where none models the
  C++ exception thrown on a failed inversion;
* the C library random source is a parameter rnd : Nat -> Rat giving the
  successive values of double(rand())/double(RAND_MAX), consumed in order;
* a mesh face is a parameter vertex : Nat -> Pt dim listing its vertex
  points in deal.II order.

Out-of-range coordinate access on a deal.II point (which trips the index
assertion of the Point class) is modelled by the Option-valued accessor
coord, so a function that would read past the end of a point returns none.
-/

namespace NPSAT

/-! ## Robust inverse-mapping resolver: try_mapping -/

/-- A physical or reference point with rational coordinates, for the
resolver component. -/
abbrev PtQ (dim : ℕ) : Type := Fin dim → ℚ

/-- The state of the while loop of try_mapping: the flag mapping_done, the
break flag of the retry budget check, the counter count_try, the number of
inversion attempts made so far, the current query point p_try and the
output parameter p_unit. -/
structure TMState (dim : ℕ) where
  mapping_done : Bool
  broke : Bool
  count_try : ℕ
  attempts : ℕ
  p_try : PtQ dim
  p_unit : PtQ dim

/-- The loop state on entry of try_mapping: mapping_done = false,
count_try = 0, p_try = p, and p_unit holding its value at entry. -/
def tmInit {dim : ℕ} (p p_unit0 : PtQ dim) : TMState dim :=
  { mapping_done := false, broke := false, count_try := 0, attempts := 0,
    p_try := p, p_unit := p_unit0 }

/-- One iteration of the while loop of try_mapping.  A state that has
already exited the loop (mapping_done or the break taken) is left
unchanged.  Otherwise the forward mapping inversion is attempted at p_try:
on success p_unit receives the result and mapping_done becomes true; on
failure (the catch block) every coordinate of p_try is reset to the
matching coordinate of the original point p plus
0.0001 * (-1 + 2 * u) with u a fresh draw from the random source,
count_try is incremented, and the loop breaks once count_try exceeds 20.
The draw for axis idim of retry number k (k = count_try before the
increment) is the value rnd (k * dim + idim), so every retry consumes dim
fresh values of the source. -/
def tmStep {dim : ℕ} (transform : PtQ dim → Option (PtQ dim)) (p : PtQ dim)
    (rnd : ℕ → ℚ) (s : TMState dim) : TMState dim :=
  if s.mapping_done || s.broke then s
  else
    match transform s.p_try with
    | some q =>
        { s with p_unit := q, mapping_done := true, attempts := s.attempts + 1 }
    | none =>
        { s with
          p_try := fun i => p i + 0.0001 * (-1 + 2 * rnd (s.count_try * dim + i.val)),
          count_try := s.count_try + 1,
          broke := decide (20 < s.count_try + 1),
          attempts := s.attempts + 1 }

/-- The loop state after n iterations of the while loop of try_mapping. -/
def tmRun {dim : ℕ} (transform : PtQ dim → Option (PtQ dim))
    (p p_unit0 : PtQ dim) (rnd : ℕ → ℚ) : ℕ → TMState dim
  | 0 => tmInit p p_unit0
  | n + 1 => tmStep transform p rnd (tmRun transform p p_unit0 rnd n)

/-- try_mapping: the pair (return value, value of the reference parameter
p_unit on exit).  Twenty-one loop iterations always suffice (theorem
tmRun_stable below: the state is unchanged by any further iteration). -/
def try_mapping {dim : ℕ} (transform : PtQ dim → Option (PtQ dim))
    (p p_unit0 : PtQ dim) (rnd : ℕ → ℚ) : Bool × PtQ dim :=
  let s := tmRun transform p p_unit0 rnd 21
  (s.mapping_done, s.p_unit)

section TryMappingLemmas

variable {dim : ℕ} (transform : PtQ dim → Option (PtQ dim))
  (p p_unit0 : PtQ dim) (rnd : ℕ → ℚ)

theorem tmStep_frozen (s : TMState dim)
    (h : s.mapping_done = true ∨ s.broke = true) :
    tmStep transform p rnd s = s := by
  rcases h with h | h <;> simp [tmStep, h]

theorem tmStep_succ (s : TMState dim) (q : PtQ dim)
    (hd : s.mapping_done = false) (hb : s.broke = false)
    (ht : transform s.p_try = some q) :
    tmStep transform p rnd s =
      { s with p_unit := q, mapping_done := true, attempts := s.attempts + 1 } := by
  simp [tmStep, hd, hb, ht]

theorem tmStep_fail (s : TMState dim)
    (hd : s.mapping_done = false) (hb : s.broke = false)
    (ht : transform s.p_try = none) :
    tmStep transform p rnd s =
      { s with
        p_try := fun i => p i + 0.0001 * (-1 + 2 * rnd (s.count_try * dim + i.val)),
        count_try := s.count_try + 1,
        broke := decide (20 < s.count_try + 1),
        attempts := s.attempts + 1 } := by
  simp [tmStep, hd, hb, ht]

/-- In every reachable state the break flag records whether count_try has
passed the retry budget. -/
theorem tmRun_broke_eq (n : ℕ) :
    (tmRun transform p p_unit0 rnd n).broke =
      decide (20 < (tmRun transform p p_unit0 rnd n).count_try) := by
  induction n with
  | zero => simp [tmRun, tmInit]
  | succ n ih =>
      have hrw : tmRun transform p p_unit0 rnd (n + 1) =
          tmStep transform p rnd (tmRun transform p p_unit0 rnd n) := rfl
      rw [hrw]
      set s := tmRun transform p p_unit0 rnd n with hs
      by_cases hd : s.mapping_done = true
      · rw [tmStep_frozen transform p rnd s (Or.inl hd)]; exact ih
      · by_cases hb : s.broke = true
        · rw [tmStep_frozen transform p rnd s (Or.inr hb)]; exact ih
        · rcases ht : transform s.p_try with _ | q
          · rw [tmStep_fail transform p rnd s (by simpa using hd) (by simpa using hb) ht]
          · rw [tmStep_succ transform p rnd s q (by simpa using hd) (by simpa using hb) ht]
            exact ih

/-- Once the loop has exited (success or break) the state never changes
again. -/
theorem tmRun_frozen_succ (n : ℕ)
    (h : (tmRun transform p p_unit0 rnd n).mapping_done = true ∨
         (tmRun transform p p_unit0 rnd n).broke = true) :
    tmRun transform p p_unit0 rnd (n + 1) = tmRun transform p p_unit0 rnd n :=
  tmStep_frozen transform p rnd _ h

/-- A state still inside the loop after n + 1 iterations was still inside
the loop after n iterations. -/
theorem tmRun_alive_prev (n : ℕ)
    (hd : (tmRun transform p p_unit0 rnd (n + 1)).mapping_done = false)
    (hb : (tmRun transform p p_unit0 rnd (n + 1)).broke = false) :
    (tmRun transform p p_unit0 rnd n).mapping_done = false ∧
      (tmRun transform p p_unit0 rnd n).broke = false := by
  by_cases h : (tmRun transform p p_unit0 rnd n).mapping_done = true ∨
      (tmRun transform p p_unit0 rnd n).broke = true
  · rw [tmRun_frozen_succ transform p p_unit0 rnd n h] at hd hb
    rcases h with h | h
    · rw [h] at hd; cases hd
    · rw [h] at hb; cases hb
  · push_neg at h
    exact ⟨by simpa using h.1, by simpa using h.2⟩

/-- While the loop is still running, count_try equals the number of
iterations performed, and so does the number of inversion attempts. -/
theorem tmRun_alive_count (n : ℕ)
    (hd : (tmRun transform p p_unit0 rnd n).mapping_done = false)
    (hb : (tmRun transform p p_unit0 rnd n).broke = false) :
    (tmRun transform p p_unit0 rnd n).count_try = n ∧
      (tmRun transform p p_unit0 rnd n).attempts = n := by
  induction n with
  | zero => simp [tmRun, tmInit]
  | succ n ih =>
      obtain ⟨hd0, hb0⟩ := tmRun_alive_prev transform p p_unit0 rnd n hd hb
      obtain ⟨hc, ha⟩ := ih hd0 hb0
      set s := tmRun transform p p_unit0 rnd n with hs
      rcases ht : transform s.p_try with _ | q
      · have := tmStep_fail transform p rnd s hd0 hb0 ht
        show (tmStep transform p rnd s).count_try = n + 1 ∧
          (tmStep transform p rnd s).attempts = n + 1
        rw [this]
        exact ⟨by simpa using hc, by simpa using ha⟩
      · exfalso
        have := tmStep_succ transform p rnd s q hd0 hb0 ht
        have hd1 : (tmRun transform p p_unit0 rnd (n + 1)).mapping_done = true := by
          show (tmStep transform p rnd s).mapping_done = true
          rw [this]
        rw [hd1] at hd; cases hd

/-- After 21 iterations the loop has exited: the inversion has succeeded
or the break of the retry budget has been taken. -/
theorem tmRun_exits (transform : PtQ dim → Option (PtQ dim))
    (p p_unit0 : PtQ dim) (rnd : ℕ → ℚ) :
    (tmRun transform p p_unit0 rnd 21).mapping_done = true ∨
      (tmRun transform p p_unit0 rnd 21).broke = true := by
  by_contra h
  push_neg at h
  have hd : (tmRun transform p p_unit0 rnd 21).mapping_done = false := by
    simpa using h.1
  have hb : (tmRun transform p p_unit0 rnd 21).broke = false := by
    simpa using h.2
  have hc := (tmRun_alive_count transform p p_unit0 rnd 21 hd hb).1
  have hbe := tmRun_broke_eq transform p p_unit0 rnd 21
  rw [hb, hc] at hbe
  simp at hbe

/-- The loop state is unchanged by every iteration beyond the 21st. -/
theorem tmRun_stable (transform : PtQ dim → Option (PtQ dim))
    (p p_unit0 : PtQ dim) (rnd : ℕ → ℚ) (n : ℕ) (hn : 21 ≤ n) :
    tmRun transform p p_unit0 rnd n = tmRun transform p p_unit0 rnd 21 := by
  induction n, hn using Nat.le_induction with
  | base => rfl
  | succ n hn ih =>
      have hrw : tmRun transform p p_unit0 rnd (n + 1) =
          tmStep transform p rnd (tmRun transform p p_unit0 rnd n) := rfl
      rw [hrw, ih]
      exact tmStep_frozen transform p rnd _ (tmRun_exits transform p p_unit0 rnd)

/-- Invariant: count_try never passes 21, the number of attempts never
passes 21, and while the loop is still running the attempt count equals
count_try. -/
theorem tmRun_inv (transform : PtQ dim → Option (PtQ dim))
    (p p_unit0 : PtQ dim) (rnd : ℕ → ℚ) (n : ℕ) :
    (tmRun transform p p_unit0 rnd n).count_try ≤ 21 ∧
      (tmRun transform p p_unit0 rnd n).attempts ≤ 21 := by
  induction n with
  | zero => simp [tmRun, tmInit]
  | succ n ih =>
      have hrw : tmRun transform p p_unit0 rnd (n + 1) =
          tmStep transform p rnd (tmRun transform p p_unit0 rnd n) := rfl
      rw [hrw]
      set s := tmRun transform p p_unit0 rnd n with hs
      by_cases hd : s.mapping_done = true
      · rw [tmStep_frozen transform p rnd s (Or.inl hd)]; exact ih
      · by_cases hb : s.broke = true
        · rw [tmStep_frozen transform p rnd s (Or.inr hb)]; exact ih
        · have hd0 : s.mapping_done = false := by simpa using hd
          have hb0 : s.broke = false := by simpa using hb
          have hcount : s.count_try ≤ 20 := by
            have hbe := tmRun_broke_eq transform p p_unit0 rnd n
            rw [← hs, hb0] at hbe
            have := of_decide_eq_false hbe.symm
            omega
          have hatt : s.attempts = s.count_try :=
            ((tmRun_alive_count transform p p_unit0 rnd n hd0 hb0).2).trans
              ((tmRun_alive_count transform p p_unit0 rnd n hd0 hb0).1).symm
          rcases ht : transform s.p_try with _ | q
          · rw [tmStep_fail transform p rnd s hd0 hb0 ht]
            constructor
            · simpa using by omega
            · simp only []
              omega
          · rw [tmStep_succ transform p rnd s q hd0 hb0 ht]
            constructor
            · simpa using hcount.trans (by omega)
            · simp only []
              omega

/-- When every inversion attempt fails, after n ≤ 21 iterations the loop
is still unsuccessful and has made exactly n attempts. -/
theorem tmRun_all_fail (transform : PtQ dim → Option (PtQ dim))
    (p p_unit0 : PtQ dim) (rnd : ℕ → ℚ)
    (hfail : ∀ q, transform q = none) (n : ℕ) (hn : n ≤ 21) :
    (tmRun transform p p_unit0 rnd n).mapping_done = false ∧
      (tmRun transform p p_unit0 rnd n).count_try = n ∧
      (tmRun transform p p_unit0 rnd n).attempts = n := by
  induction n with
  | zero => simp [tmRun, tmInit]
  | succ n ih =>
      obtain ⟨hd, hc, ha⟩ := ih (by omega)
      have hb : (tmRun transform p p_unit0 rnd n).broke = false := by
        have hbe := tmRun_broke_eq transform p p_unit0 rnd n
        rw [hc] at hbe
        rw [hbe]
        simp
        omega
      have hrw : tmRun transform p p_unit0 rnd (n + 1) =
          tmStep transform p rnd (tmRun transform p p_unit0 rnd n) := rfl
      rw [hrw, tmStep_fail transform p rnd _ hd hb (hfail _)]
      refine ⟨by simpa using hd, by simpa using congrArg Nat.succ hc,
        by simpa using congrArg Nat.succ ha⟩

/-- The p_unit reference parameter is written only by a successful
inversion: while mapping_done is false it still holds the entry value,
and once mapping_done is true it holds a value produced by the forward
mapping inversion. -/
theorem tmRun_p_unit (transform : PtQ dim → Option (PtQ dim))
    (p p_unit0 : PtQ dim) (rnd : ℕ → ℚ) (n : ℕ) :
    ((tmRun transform p p_unit0 rnd n).mapping_done = false →
        (tmRun transform p p_unit0 rnd n).p_unit = p_unit0) ∧
      ((tmRun transform p p_unit0 rnd n).mapping_done = true →
        ∃ q, transform q = some ((tmRun transform p p_unit0 rnd n).p_unit)) := by
  induction n with
  | zero => exact ⟨fun _ => rfl, by simp [tmRun, tmInit]⟩
  | succ n ih =>
      have hrw : tmRun transform p p_unit0 rnd (n + 1) =
          tmStep transform p rnd (tmRun transform p p_unit0 rnd n) := rfl
      rw [hrw]
      set s := tmRun transform p p_unit0 rnd n with hs
      by_cases hd : s.mapping_done = true
      · rw [tmStep_frozen transform p rnd s (Or.inl hd)]; exact ih
      · by_cases hb : s.broke = true
        · rw [tmStep_frozen transform p rnd s (Or.inr hb)]; exact ih
        · have hd0 : s.mapping_done = false := by simpa using hd
          have hb0 : s.broke = false := by simpa using hb
          rcases ht : transform s.p_try with _ | q
          · rw [tmStep_fail transform p rnd s hd0 hb0 ht]
            exact ⟨fun _ => ih.1 hd0, by simp [hd0]⟩
          · rw [tmStep_succ transform p rnd s q hd0 hb0 ht]
            exact ⟨by simp, fun _ => ⟨s.p_try, ht⟩⟩

/-- Retry draw indices: distinct retries and distinct axes always consume
distinct positions of the random stream. -/
theorem retry_index_inj {dim : ℕ} (n m : ℕ) (i j : Fin dim)
    (h : n * dim + i.val = m * dim + j.val) : n = m ∧ i = j := by
  have hdim : 0 < dim := i.pos
  have hn : (n * dim + i.val) / dim = n := by
    rw [Nat.mul_comm, Nat.mul_add_div hdim, Nat.div_eq_of_lt i.isLt, Nat.add_zero]
  have hm : (m * dim + j.val) / dim = m := by
    rw [Nat.mul_comm, Nat.mul_add_div hdim, Nat.div_eq_of_lt j.isLt, Nat.add_zero]
  have hnm : n = m := by rw [← hn, ← hm, h]
  subst hnm
  have hij : i.val = j.val := by omega
  exact ⟨rfl, Fin.ext hij⟩

end TryMappingLemmas

/-- C1: the inverse-mapping resolver try_mapping, when every inversion
attempt fails, makes exactly 21 total attempts (the first on the original
point, since the initial query point is p itself, then 20 on perturbed
points) and then stops, returning the failure value false instead of
looping forever or raising a fatal error: for every input the attempt
count never passes 21 and the loop state is fixed from iteration 21 on. -/
theorem try_mapping_bounded_retry {dim : ℕ}
    (transform : PtQ dim → Option (PtQ dim)) (p p_unit0 : PtQ dim) (rnd : ℕ → ℚ) :
    ((∀ q, transform q = none) →
        (try_mapping transform p p_unit0 rnd).1 = false ∧
          (tmRun transform p p_unit0 rnd 21).attempts = 21) ∧
      (tmRun transform p p_unit0 rnd 0).p_try = p ∧
      (∀ n, (tmRun transform p p_unit0 rnd n).attempts ≤ 21) ∧
      (∀ n, 21 ≤ n →
        tmRun transform p p_unit0 rnd n = tmRun transform p p_unit0 rnd 21) := by
  refine ⟨fun hfail => ?_, rfl, fun n => (tmRun_inv transform p p_unit0 rnd n).2,
    fun n hn => tmRun_stable transform p p_unit0 rnd n hn⟩
  obtain ⟨hd, _, ha⟩ :=
    tmRun_all_fail transform p p_unit0 rnd hfail 21 (by omega)
  exact ⟨hd, ha⟩

/-- Witness for C1 at a concrete input: a forward mapping that always
fails, in one dimension, with the zero point and a zero random stream. -/
theorem try_mapping_bounded_retry_witness :
    (@try_mapping 1 (fun _ => none) (fun _ => 0) (fun _ => 0)
        (fun _ => 0)).1 = false ∧
      (@tmRun 1 (fun _ => none) (fun _ => 0) (fun _ => 0)
        (fun _ => 0) 21).attempts = 21 :=
  (try_mapping_bounded_retry (fun _ => none) (fun _ => 0) (fun _ => 0)
    (fun _ => 0)).1 (fun _ => rfl)

/-- C2: every retry of try_mapping queries the original input point p,
not the previously perturbed point, shifted on each axis idim by
0.0001 * (-1 + 2 * u) with u a fresh draw of the random source: after
n + 1 failed attempts the pending query point has coordinates
p idim + 0.0001 * (-1 + 2 * rnd (n * dim + idim)), the stream positions
n * dim + idim are distinct across retries and across axes, and whenever
the source draws values in [0, 1] the perturbed coordinate stays within
0.0001 of the original coordinate. -/
theorem try_mapping_retry_point {dim : ℕ}
    (transform : PtQ dim → Option (PtQ dim)) (p p_unit0 : PtQ dim)
    (rnd : ℕ → ℚ) (n : ℕ)
    (hd : (tmRun transform p p_unit0 rnd (n + 1)).mapping_done = false)
    (hb : (tmRun transform p p_unit0 rnd (n + 1)).broke = false) :
    (∀ i : Fin dim, (tmRun transform p p_unit0 rnd (n + 1)).p_try i =
        p i + 0.0001 * (-1 + 2 * rnd (n * dim + i.val))) ∧
      (∀ (m : ℕ) (i j : Fin dim),
        n * dim + i.val = m * dim + j.val → n = m ∧ i = j) ∧
      ((∀ k, 0 ≤ rnd k ∧ rnd k ≤ 1) → ∀ i : Fin dim,
        p i - 0.0001 ≤ (tmRun transform p p_unit0 rnd (n + 1)).p_try i ∧
          (tmRun transform p p_unit0 rnd (n + 1)).p_try i ≤ p i + 0.0001) := by
  obtain ⟨hd0, hb0⟩ := tmRun_alive_prev transform p p_unit0 rnd n hd hb
  have hc := (tmRun_alive_count transform p p_unit0 rnd n hd0 hb0).1
  have hrw : tmRun transform p p_unit0 rnd (n + 1) =
      tmStep transform p rnd (tmRun transform p p_unit0 rnd n) := rfl
  rcases ht : transform (tmRun transform p p_unit0 rnd n).p_try with _ | q
  · have hstep := tmStep_fail transform p rnd _ hd0 hb0 ht
    have hpt : ∀ i : Fin dim, (tmRun transform p p_unit0 rnd (n + 1)).p_try i =
        p i + 0.0001 * (-1 + 2 * rnd (n * dim + i.val)) := by
      intro i
      rw [hrw, hstep]
      simp [hc]
    refine ⟨hpt, fun m i j hij => retry_index_inj n m i j hij, fun hrng i => ?_⟩
    have h1 := (hrng (n * dim + i.val)).1
    have h2 := (hrng (n * dim + i.val)).2
    rw [hpt i]
    constructor <;> nlinarith [h1, h2]
  · exfalso
    have hstep := tmStep_succ transform p rnd _ q hd0 hb0 ht
    have : (tmRun transform p p_unit0 rnd (n + 1)).mapping_done = true := by
      rw [hrw, hstep]
    rw [this] at hd
    cases hd

/-- Witness for C2 at a concrete input: one failed attempt of an
always-failing mapping in one dimension with a constant random stream of
one half, checking the first retry point. -/
theorem try_mapping_retry_point_witness :
    (@tmRun 1 (fun _ => none) (fun _ => 0) (fun _ => 0)
        (fun _ => 1/2) 1).p_try 0 = 0 + 0.0001 * (-1 + 2 * (1/2)) :=
  (try_mapping_retry_point (fun _ => none) (fun _ => 0) (fun _ => 0)
    (fun _ => 1/2) 0 rfl rfl).1 0

/-- C3: when try_mapping fails it returns false and leaves the reference
coordinate parameter p_unit exactly as it was on entry; when it returns
true, p_unit holds a value actually produced by the forward mapping
inversion (never a silently wrong coordinate). -/
theorem try_mapping_failure_output {dim : ℕ}
    (transform : PtQ dim → Option (PtQ dim)) (p p_unit0 : PtQ dim) (rnd : ℕ → ℚ) :
    ((try_mapping transform p p_unit0 rnd).1 = false →
        (try_mapping transform p p_unit0 rnd).2 = p_unit0) ∧
      ((try_mapping transform p p_unit0 rnd).1 = true →
        ∃ q, transform q = some ((try_mapping transform p p_unit0 rnd).2)) :=
  tmRun_p_unit transform p p_unit0 rnd 21

/-- Witness for C3 at a concrete input: an always-failing mapping in one
dimension leaves a p_unit entry value of 37 untouched. -/
theorem try_mapping_failure_output_witness :
    (@try_mapping 1 (fun _ => none) (fun _ => 0) (fun _ => 37)
        (fun _ => 0)).2 = (fun _ => (37 : ℚ)) :=
  (try_mapping_failure_output (fun _ => none) (fun _ => 0) (fun _ => 37)
    (fun _ => 0)).1 rfl

/-! ## Geometry primitives: triangle_area and recharge_weight -/

/-- A deal.II point with dim real coordinates, for the geometry
components (these use square roots, hence real coordinates). -/
abbrev Pt (dim : ℕ) : Type := Fin dim → ℝ

/-- Coordinate access A[i] on a deal.II point: defined for i < dim, and a
failure (the index-range assertion of the Point class) otherwise. -/
def coord {dim : ℕ} (A : Pt dim) (i : ℕ) : Option ℝ :=
  if h : i < dim then some (A ⟨i, h⟩) else none

/-- triangle_area: the area of the triangle with vertices A, B, C.  With
project = true it is the absolute value of the shoelace expression on the
first two coordinates; with project = false it is half the square root of
the sum of the squares of the three 2 x 2 minor determinants, which reads
the third coordinates and is therefore only defined in three (or more)
dimensions. -/
noncomputable def triangle_area {dim : ℕ} (A B C : Pt dim)
    (project : Bool) : Option ℝ :=
  if project then do
    let a0 ← coord A 0
    let a1 ← coord A 1
    let b0 ← coord B 0
    let b1 ← coord B 1
    let c0 ← coord C 0
    let c1 ← coord C 1
    pure |0.5 * (a0 * (b1 - c1) + b0 * (c1 - a1) + c0 * (a1 - b1))|
  else do
    let x1 ← coord A 0
    let y1 ← coord A 1
    let z1 ← coord A 2
    let x2 ← coord B 0
    let y2 ← coord B 1
    let z2 ← coord B 2
    let x3 ← coord C 0
    let y3 ← coord C 1
    let z3 ← coord C 2
    let area := (x1 * y2 - x2 * y1 - x1 * y3 + x3 * y1 + x2 * y3 - x3 * y2) ^ 2 +
      (x1 * z2 - x2 * z1 - x1 * z3 + x3 * z1 + x2 * z3 - x3 * z2) ^ 2 +
      (y1 * z2 - y2 * z1 - y1 * z3 + y3 * z1 + y2 * z3 - y3 * z2) ^ 2
    pure (0.5 * Real.sqrt area)

/-- The deal.II point distance: the Euclidean distance over all dim
coordinates. -/
noncomputable def pointDistance {dim : ℕ} (a b : Pt dim) : ℝ :=
  Real.sqrt (∑ i : Fin dim, (a i - b i) ^ 2)

/-- recharge_weight: the weight starts at 1; for dim = 2 it becomes the
ratio of the horizontal projection of the face edge to its full length,
for dim = 3 the ratio of the projected to the true area of the
quadrilateral face split along the diagonal from vertex 0 to vertex 3
into the triangles (v1, v2, v4) and (v1, v4, v3); for any other dim the
initial weight 1 is returned.  The parameter vertex lists the face
vertices in deal.II order, v1 = vertex 0, v2 = vertex 1, v3 = vertex 2,
v4 = vertex 3. -/
noncomputable def recharge_weight {dim : ℕ} (vertex : ℕ → Pt dim) : Option ℝ :=
  if dim = 2 then do
    let x1 ← coord (vertex 0) 0
    let x2 ← coord (vertex 1) 0
    pure (|x2 - x1| / pointDistance (vertex 0) (vertex 1))
  else if dim = 3 then do
    let ar1 ← triangle_area (vertex 0) (vertex 1) (vertex 3) false
    let ar2 ← triangle_area (vertex 0) (vertex 3) (vertex 2) false
    let ap1 ← triangle_area (vertex 0) (vertex 1) (vertex 3) true
    let ap2 ← triangle_area (vertex 0) (vertex 3) (vertex 2) true
    pure ((ap1 + ap2) / (ar1 + ar2))
  else pure 1

/-- The xy minor determinant of the coordinate matrix of a triangle,
exactly as written inside triangle_area (and the shoelace expression of
the projected branch equals it). -/
noncomputable def mxy (A B C : Pt 3) : ℝ :=
  A 0 * B 1 - B 0 * A 1 - A 0 * C 1 + C 0 * A 1 + B 0 * C 1 - C 0 * B 1

/-- The xz minor determinant of the coordinate matrix of a triangle. -/
noncomputable def mxz (A B C : Pt 3) : ℝ :=
  A 0 * B 2 - B 0 * A 2 - A 0 * C 2 + C 0 * A 2 + B 0 * C 2 - C 0 * B 2

/-- The yz minor determinant of the coordinate matrix of a triangle. -/
noncomputable def myz (A B C : Pt 3) : ℝ :=
  A 1 * B 2 - B 1 * A 2 - A 1 * C 2 + C 1 * A 2 + B 1 * C 2 - C 1 * B 2

/-- The value of the non-projected branch of triangle_area in three
dimensions. -/
noncomputable def triReal (A B C : Pt 3) : ℝ :=
  0.5 * Real.sqrt (mxy A B C ^ 2 + mxz A B C ^ 2 + myz A B C ^ 2)

/-- The value of the projected branch of triangle_area in three
dimensions. -/
noncomputable def triProj (A B C : Pt 3) : ℝ := |0.5 * mxy A B C|

/-- The true area of the quadrilateral face computed by recharge_weight
for dim = 3: sum of the two triangle areas across the diagonal. -/
noncomputable def aReal (vertex : ℕ → Pt 3) : ℝ :=
  triReal (vertex 0) (vertex 1) (vertex 3) + triReal (vertex 0) (vertex 3) (vertex 2)

/-- The projected area of the quadrilateral face computed by
recharge_weight for dim = 3. -/
noncomputable def aProj (vertex : ℕ → Pt 3) : ℝ :=
  triProj (vertex 0) (vertex 1) (vertex 3) + triProj (vertex 0) (vertex 3) (vertex 2)

theorem triangle_area_false_eq (A B C : Pt 3) :
    triangle_area A B C false = some (triReal A B C) := by
  simp [triangle_area, coord, triReal, mxy, mxz, myz]

theorem triangle_area_true_eq (A B C : Pt 3) :
    triangle_area A B C true = some (triProj A B C) := by
  simp [triangle_area, coord, triProj, mxy]
  congr 1
  ring

/-- The projected branch of triangle_area in terms of the first two
coordinates of its three vertices, in any dimension where those
coordinates exist. -/
theorem triangle_area_proj_of_coords {dim : ℕ} (A B C : Pt dim)
    (a0 a1 b0 b1 c0 c1 : ℝ)
    (hA0 : coord A 0 = some a0) (hA1 : coord A 1 = some a1)
    (hB0 : coord B 0 = some b0) (hB1 : coord B 1 = some b1)
    (hC0 : coord C 0 = some c0) (hC1 : coord C 1 = some c1) :
    triangle_area A B C true =
      some |0.5 * (a0 * (b1 - c1) + b0 * (c1 - a1) + c0 * (a1 - b1))| := by
  simp [triangle_area, hA0, hA1, hB0, hB1, hC0, hC1]

/-- C4: with project = true, triangle_area returns the absolute value of
the shoelace expression on the first two coordinates of A, B, C; the
result is non-negative and unchanged by every cyclic permutation and
every transposition of the three vertices. -/
theorem triangle_area_shoelace {dim : ℕ} (A B C : Pt dim)
    (a0 a1 b0 b1 c0 c1 : ℝ)
    (hA0 : coord A 0 = some a0) (hA1 : coord A 1 = some a1)
    (hB0 : coord B 0 = some b0) (hB1 : coord B 1 = some b1)
    (hC0 : coord C 0 = some c0) (hC1 : coord C 1 = some c1) :
    triangle_area A B C true =
        some |0.5 * (a0 * (b1 - c1) + b0 * (c1 - a1) + c0 * (a1 - b1))| ∧
      (∀ a, triangle_area A B C true = some a → 0 ≤ a) ∧
      triangle_area B C A true = triangle_area A B C true ∧
      triangle_area C A B true = triangle_area A B C true ∧
      triangle_area B A C true = triangle_area A B C true ∧
      triangle_area A C B true = triangle_area A B C true ∧
      triangle_area C B A true = triangle_area A B C true := by
  have hABC := triangle_area_proj_of_coords A B C a0 a1 b0 b1 c0 c1
    hA0 hA1 hB0 hB1 hC0 hC1
  have hBCA := triangle_area_proj_of_coords B C A b0 b1 c0 c1 a0 a1
    hB0 hB1 hC0 hC1 hA0 hA1
  have hCAB := triangle_area_proj_of_coords C A B c0 c1 a0 a1 b0 b1
    hC0 hC1 hA0 hA1 hB0 hB1
  have hBAC := triangle_area_proj_of_coords B A C b0 b1 a0 a1 c0 c1
    hB0 hB1 hA0 hA1 hC0 hC1
  have hACB := triangle_area_proj_of_coords A C B a0 a1 c0 c1 b0 b1
    hA0 hA1 hC0 hC1 hB0 hB1
  have hCBA := triangle_area_proj_of_coords C B A c0 c1 b0 b1 a0 a1
    hC0 hC1 hB0 hB1 hA0 hA1
  refine ⟨hABC, ?_, ?_, ?_, ?_, ?_, ?_⟩
  · intro a ha
    rw [hABC] at ha
    obtain rfl : a = _ := (Option.some_inj.mp ha).symm
    exact abs_nonneg _
  · rw [hBCA, hABC]
    congr 1
    congr 1
    ring
  · rw [hCAB, hABC]
    congr 1
    congr 1
    ring
  · rw [hBAC, hABC]
    rw [show (0.5 * (b0 * (a1 - c1) + a0 * (c1 - b1) + c0 * (b1 - a1)) : ℝ) =
      -(0.5 * (a0 * (b1 - c1) + b0 * (c1 - a1) + c0 * (a1 - b1))) from by ring,
      abs_neg]
  · rw [hACB, hABC]
    rw [show (0.5 * (a0 * (c1 - b1) + c0 * (b1 - a1) + b0 * (a1 - c1)) : ℝ) =
      -(0.5 * (a0 * (b1 - c1) + b0 * (c1 - a1) + c0 * (a1 - b1))) from by ring,
      abs_neg]
  · rw [hCBA, hABC]
    rw [show (0.5 * (c0 * (b1 - a1) + b0 * (a1 - c1) + a0 * (c1 - b1)) : ℝ) =
      -(0.5 * (a0 * (b1 - c1) + b0 * (c1 - a1) + c0 * (a1 - b1))) from by ring,
      abs_neg]

/-- Witness for C4 at a concrete input: the 3-4 right triangle in two
dimensions, whose projected area evaluates through the shoelace form. -/
theorem triangle_area_shoelace_witness :
    triangle_area ![0, 0] ![3, 0] ![0, 4] true =
      some |0.5 * ((0 : ℝ) * (0 - 4) + 3 * (4 - 0) + 0 * (0 - 0))| :=
  (triangle_area_shoelace ![0, 0] ![3, 0] ![0, 4] 0 0 3 0 0 4
    (by norm_num [coord]) (by norm_num [coord]) (by norm_num [coord])
    (by norm_num [coord]) (by norm_num [coord]) (by norm_num [coord])).1

set_option maxHeartbeats 1000000 in
/-- C5: the non-projected branch of triangle_area reads the third
coordinate of its vertices, so for every dimension other than 3 that a
deal.II point can have (dim < 3) the call fails on the coordinate access
instead of silently returning an area. -/
theorem triangle_area_nonproj_fails (dim : ℕ) (hdim : dim < 3)
    (A B C : Pt dim) : triangle_area A B C false = none := by
  have h2 : coord A 2 = none := by
    rw [coord, dif_neg (by omega)]
  rw [triangle_area]
  simp only [Bool.false_eq_true, if_false, h2]
  cases h0 : coord A 0 with
  | none => simp [h0]
  | some x0 =>
      cases h1 : coord A 1 with
      | none => simp [h0, h1]
      | some x1 => simp [h0, h1]

/-- Witness for C5 at a concrete input: a two-dimensional triangle, for
which the non-projected area call fails. -/
theorem triangle_area_nonproj_fails_witness :
    triangle_area ![0, 0] ![1, 0] ![0, 1] false = none :=
  triangle_area_nonproj_fails 2 (by omega) ![0, 0] ![1, 0] ![0, 1]

theorem recharge_weight_dim3 (vertex : ℕ → Pt 3) :
    recharge_weight vertex = some (aProj vertex / aReal vertex) := by
  rw [recharge_weight]
  norm_num
  rw [triangle_area_false_eq, triangle_area_false_eq,
    triangle_area_true_eq, triangle_area_true_eq]
  simp [aProj, aReal]

/-! ## C6: recharge_weight against the formulas of the specification -/

/-- Stated from the spec for the refinement claim C6: the cross product
of two 3-vectors. -/
noncomputable def crossProduct (u v : Fin 3 → ℝ) : Fin 3 → ℝ :=
  ![u 1 * v 2 - u 2 * v 1, u 2 * v 0 - u 0 * v 2, u 0 * v 1 - u 1 * v 0]

/-- Stated from the spec: the Euclidean magnitude of a 3-vector. -/
noncomputable def norm3 (u : Fin 3 → ℝ) : ℝ :=
  Real.sqrt (u 0 ^ 2 + u 1 ^ 2 + u 2 ^ 2)

/-- Stated from the spec: the exact triangle area as half the magnitude
of the cross product of the edge vectors B - A and C - A. -/
noncomputable def triangle_area3_spec (A B C : Pt 3) : ℝ :=
  0.5 * norm3 (crossProduct (fun i => B i - A i) (fun i => C i - A i))

/-- Stated from the spec: the projected triangle area as the absolute
value of the standard shoelace formula. -/
noncomputable def triangle_area_proj_spec (A B C : Pt 3) : ℝ :=
  0.5 * |A 0 * (B 1 - C 1) + B 0 * (C 1 - A 1) + C 0 * (A 1 - B 1)|

/-- Stated from the spec: the face weight in two dimensions, the ratio of
the horizontal-axis-only difference to the full Euclidean length. -/
noncomputable def recharge_weight2_spec (v1 v2 : Pt 2) : ℝ :=
  |v1 0 - v2 0| / pointDistance v1 v2

/-- Stated from the spec: the face weight in three dimensions, the
quadrilateral split along the diagonal into the triangles (v1, v2, v4)
and (v1, v4, v3), projected area over true area. -/
noncomputable def recharge_weight3_spec (v1 v2 v3 v4 : Pt 3) : ℝ :=
  (triangle_area_proj_spec v1 v2 v4 + triangle_area_proj_spec v1 v4 v3) /
    (triangle_area3_spec v1 v2 v4 + triangle_area3_spec v1 v4 v3)

theorem triProj_eq_spec (A B C : Pt 3) :
    triProj A B C = triangle_area_proj_spec A B C := by
  rw [triProj, triangle_area_proj_spec,
    show A 0 * (B 1 - C 1) + B 0 * (C 1 - A 1) + C 0 * (A 1 - B 1) = mxy A B C
      from by rw [mxy]; ring,
    abs_mul, abs_of_pos (show (0 : ℝ) < 0.5 by norm_num)]

theorem triReal_eq_spec (A B C : Pt 3) :
    triReal A B C = triangle_area3_spec A B C := by
  have h0 : crossProduct (fun i => B i - A i) (fun i => C i - A i) 0 =
      (B 1 - A 1) * (C 2 - A 2) - (B 2 - A 2) * (C 1 - A 1) := rfl
  have h1 : crossProduct (fun i => B i - A i) (fun i => C i - A i) 1 =
      (B 2 - A 2) * (C 0 - A 0) - (B 0 - A 0) * (C 2 - A 2) := rfl
  have h2 : crossProduct (fun i => B i - A i) (fun i => C i - A i) 2 =
      (B 0 - A 0) * (C 1 - A 1) - (B 1 - A 1) * (C 0 - A 0) := rfl
  rw [triReal, triangle_area3_spec, norm3, h0, h1, h2]
  congr 2
  rw [mxy, mxz, myz]
  ring

/-- C6: recharge_weight computes, for dim = 2, the horizontal projection
of the face edge over its Euclidean length; for dim = 3, the sum of the
projected areas of the triangles (v1, v2, v4) and (v1, v4, v3) over the
sum of their true areas, the quadrilateral being split along the diagonal
from v1 to v4; and for every dim outside two and three it returns
exactly 1. -/
theorem recharge_weight_matches_spec :
    (∀ vertex : ℕ → Pt 2, recharge_weight vertex =
        some (recharge_weight2_spec (vertex 0) (vertex 1))) ∧
      (∀ vertex : ℕ → Pt 3, recharge_weight vertex =
        some (recharge_weight3_spec (vertex 0) (vertex 1) (vertex 2) (vertex 3))) ∧
      (∀ (dim : ℕ), dim ≠ 2 → dim ≠ 3 → ∀ vertex : ℕ → Pt dim,
        recharge_weight vertex = some 1) := by
  refine ⟨fun vertex => ?_, fun vertex => ?_, fun dim h2 h3 vertex => ?_⟩
  · rw [recharge_weight]
    simp only [if_pos rfl]
    simp [coord, recharge_weight2_spec, abs_sub_comm]
  · rw [recharge_weight_dim3, recharge_weight3_spec, aProj, aReal,
      triProj_eq_spec, triProj_eq_spec, triReal_eq_spec, triReal_eq_spec]
  · rw [recharge_weight, if_neg h2, if_neg h3]
    rfl

/-- Witness for C6 at a concrete input: an unsupported dimension returns
the default weight 1. -/
theorem recharge_weight_matches_spec_witness :
    @recharge_weight 5 (fun _ => fun _ => 0) = some 1 :=
  recharge_weight_matches_spec.2.2 5 (by norm_num) (by norm_num)
    (fun _ => fun _ => 0)

/-! ## C7: range of the face weight and the horizontal case -/

theorem triProj_le_triReal (A B C : Pt 3) : triProj A B C ≤ triReal A B C := by
  rw [triProj, triReal, abs_mul, abs_of_pos (show (0 : ℝ) < 0.5 by norm_num),
    ← Real.sqrt_sq_eq_abs]
  have h : mxy A B C ^ 2 ≤ mxy A B C ^ 2 + mxz A B C ^ 2 + myz A B C ^ 2 := by
    nlinarith [sq_nonneg (mxz A B C), sq_nonneg (myz A B C)]
  nlinarith [Real.sqrt_le_sqrt h]

theorem triReal_nonneg (A B C : Pt 3) : 0 ≤ triReal A B C :=
  mul_nonneg (by norm_num) (Real.sqrt_nonneg _)

theorem triProj_nonneg (A B C : Pt 3) : 0 ≤ triProj A B C := abs_nonneg _

theorem triProj_eq_triReal_iff (A B C : Pt 3) :
    triProj A B C = triReal A B C ↔ mxz A B C = 0 ∧ myz A B C = 0 := by
  rw [triProj, triReal, abs_mul, abs_of_pos (show (0 : ℝ) < 0.5 by norm_num),
    ← Real.sqrt_sq_eq_abs]
  constructor
  · intro h
    have h5 : Real.sqrt (mxy A B C ^ 2) =
        Real.sqrt (mxy A B C ^ 2 + mxz A B C ^ 2 + myz A B C ^ 2) := by
      have := mul_left_cancel₀ (show (0.5 : ℝ) ≠ 0 by norm_num) h
      exact this
    have harg : mxy A B C ^ 2 =
        mxy A B C ^ 2 + mxz A B C ^ 2 + myz A B C ^ 2 :=
      (Real.sqrt_inj (sq_nonneg _) (by positivity)).mp h5
    constructor
    · nlinarith [sq_nonneg (mxz A B C), sq_nonneg (myz A B C)]
    · nlinarith [sq_nonneg (mxz A B C), sq_nonneg (myz A B C)]
  · intro h
    rw [h.1, h.2]
    norm_num

/-- The minors are the components of the cross product of the edge
vectors: the minors form of the xy minor. -/
theorem mxy_factored (A B C : Pt 3) :
    mxy A B C = (B 0 - A 0) * (C 1 - A 1) - (C 0 - A 0) * (B 1 - A 1) := by
  rw [mxy]; ring

theorem mxz_factored (A B C : Pt 3) :
    mxz A B C = (B 0 - A 0) * (C 2 - A 2) - (C 0 - A 0) * (B 2 - A 2) := by
  rw [mxz]; ring

theorem myz_factored (A B C : Pt 3) :
    myz A B C = (B 1 - A 1) * (C 2 - A 2) - (C 1 - A 1) * (B 2 - A 2) := by
  rw [myz]; ring

/-- The cross product of the edge vectors is orthogonal to B - A,
expressed through the minors. -/
theorem minors_dot_edgeB (A B C : Pt 3) :
    myz A B C * (B 0 - A 0) - mxz A B C * (B 1 - A 1) +
      mxy A B C * (B 2 - A 2) = 0 := by
  rw [mxy, mxz, myz]; ring

theorem minors_dot_edgeC (A B C : Pt 3) :
    myz A B C * (C 0 - A 0) - mxz A B C * (C 1 - A 1) +
      mxy A B C * (C 2 - A 2) = 0 := by
  rw [mxy, mxz, myz]; ring

/-- A triangle whose xz and yz minors vanish but whose xy minor does not
lies in a horizontal plane. -/
theorem horizontal_of_minors (A B C : Pt 3)
    (hxz : mxz A B C = 0) (hyz : myz A B C = 0) (hxy : mxy A B C ≠ 0) :
    B 2 = A 2 ∧ C 2 = A 2 := by
  have hB := minors_dot_edgeB A B C
  have hC := minors_dot_edgeC A B C
  rw [hxz, hyz] at hB hC
  constructor
  · have : mxy A B C * (B 2 - A 2) = 0 := by linarith
    rcases mul_eq_zero.mp this with h | h
    · exact absurd h hxy
    · linarith
  · have : mxy A B C * (C 2 - A 2) = 0 := by linarith
    rcases mul_eq_zero.mp this with h | h
    · exact absurd h hxy
    · linarith

/-- A triangle with all three minors zero and the xz and yz minors of its
companion zero forces nothing by itself; what we need is that a vanishing
triangle sharing the diagonal with a nondegenerate horizontal one is also
horizontal.  This is proved inline in the main C7 theorem. -/
theorem triReal_pos_of_sum (t1 t2 : ℝ) (_h1 : 0 ≤ t1) (_h2 : 0 ≤ t2)
    (h : 0 < t1 + t2) : 0 < t1 ∨ 0 < t2 := by
  by_cases ht : 0 < t1
  · exact Or.inl ht
  · right; push_neg at ht; linarith

/-- C7: for a quadrilateral face with strictly positive true area and
strictly positive horizontal projection, the weight computed by
recharge_weight lies in (0, 1], and it equals 1 exactly when the face is
horizontal, that is when all four vertices share the third coordinate; in
particular a horizontal face has weight exactly 1. -/
theorem recharge_weight_range (vertex : ℕ → Pt 3)
    (hAr : 0 < aReal vertex) (hAp : 0 < aProj vertex) :
    recharge_weight vertex = some (aProj vertex / aReal vertex) ∧
      0 < aProj vertex / aReal vertex ∧
      aProj vertex / aReal vertex ≤ 1 ∧
      (aProj vertex / aReal vertex = 1 ↔
        (vertex 1 2 = vertex 0 2 ∧ vertex 2 2 = vertex 0 2 ∧
          vertex 3 2 = vertex 0 2)) := by
  have hle1 : triProj (vertex 0) (vertex 1) (vertex 3) ≤
      triReal (vertex 0) (vertex 1) (vertex 3) := triProj_le_triReal _ _ _
  have hle2 : triProj (vertex 0) (vertex 3) (vertex 2) ≤
      triReal (vertex 0) (vertex 3) (vertex 2) := triProj_le_triReal _ _ _
  have hsum : aProj vertex ≤ aReal vertex := by
    rw [aProj, aReal]; exact add_le_add hle1 hle2
  refine ⟨recharge_weight_dim3 vertex, div_pos hAp hAr,
    (div_le_one hAr).mpr hsum, ?_⟩
  rw [div_eq_one_iff_eq (ne_of_gt hAr)]
  constructor
  · intro heq
    have he1 : triProj (vertex 0) (vertex 1) (vertex 3) =
        triReal (vertex 0) (vertex 1) (vertex 3) := by
      rw [aProj, aReal] at heq; linarith
    have he2 : triProj (vertex 0) (vertex 3) (vertex 2) =
        triReal (vertex 0) (vertex 3) (vertex 2) := by
      rw [aProj, aReal] at heq; linarith
    obtain ⟨hxz1, hyz1⟩ := (triProj_eq_triReal_iff _ _ _).mp he1
    obtain ⟨hxz2, hyz2⟩ := (triProj_eq_triReal_iff _ _ _).mp he2
    have hArSplit : 0 < triReal (vertex 0) (vertex 1) (vertex 3) ∨
        0 < triReal (vertex 0) (vertex 3) (vertex 2) := by
      refine triReal_pos_of_sum _ _ (triReal_nonneg _ _ _)
        (triReal_nonneg _ _ _) ?_
      rw [aReal] at hAr; exact hAr
    rcases hArSplit with ht1 | ht2
    · have hxy1 : mxy (vertex 0) (vertex 1) (vertex 3) ≠ 0 := by
        intro h
        rw [triReal, h, hxz1, hyz1] at ht1
        norm_num at ht1
      obtain ⟨hb2, hd2⟩ := horizontal_of_minors _ _ _ hxz1 hyz1 hxy1
      refine ⟨hb2, ?_, hd2⟩
      by_contra hc2
      have hfx : (vertex 3 0 - vertex 0 0) * (vertex 2 2 - vertex 0 2) = 0 := by
        have := mxz_factored (vertex 0) (vertex 3) (vertex 2)
        rw [hxz2, hd2] at this
        nlinarith [this]
      have hfy : (vertex 3 1 - vertex 0 1) * (vertex 2 2 - vertex 0 2) = 0 := by
        have := myz_factored (vertex 0) (vertex 3) (vertex 2)
        rw [hyz2, hd2] at this
        nlinarith [this]
      have hcz : vertex 2 2 - vertex 0 2 ≠ 0 := fun h => hc2 (by linarith)
      have hd0 : vertex 3 0 - vertex 0 0 = 0 := by
        rcases mul_eq_zero.mp hfx with h | h
        · exact h
        · exact absurd h hcz
      have hd1 : vertex 3 1 - vertex 0 1 = 0 := by
        rcases mul_eq_zero.mp hfy with h | h
        · exact h
        · exact absurd h hcz
      apply hxy1
      rw [mxy_factored]
      rw [show vertex 3 1 - vertex 0 1 = 0 from hd1,
        show vertex 3 0 - vertex 0 0 = 0 from hd0]
      ring
    · have hxy2 : mxy (vertex 0) (vertex 3) (vertex 2) ≠ 0 := by
        intro h
        rw [triReal, h, hxz2, hyz2] at ht2
        norm_num at ht2
      obtain ⟨hd2, hc2⟩ := horizontal_of_minors _ _ _ hxz2 hyz2 hxy2
      refine ⟨?_, hc2, hd2⟩
      by_contra hb2
      have hfx : (vertex 3 0 - vertex 0 0) * (vertex 1 2 - vertex 0 2) = 0 := by
        have := mxz_factored (vertex 0) (vertex 1) (vertex 3)
        rw [hxz1, hd2] at this
        nlinarith [this]
      have hfy : (vertex 3 1 - vertex 0 1) * (vertex 1 2 - vertex 0 2) = 0 := by
        have := myz_factored (vertex 0) (vertex 1) (vertex 3)
        rw [hyz1, hd2] at this
        nlinarith [this]
      have hbz : vertex 1 2 - vertex 0 2 ≠ 0 := fun h => hb2 (by linarith)
      have hd0 : vertex 3 0 - vertex 0 0 = 0 := by
        rcases mul_eq_zero.mp hfx with h | h
        · exact h
        · exact absurd h hbz
      have hd1 : vertex 3 1 - vertex 0 1 = 0 := by
        rcases mul_eq_zero.mp hfy with h | h
        · exact h
        · exact absurd h hbz
      apply hxy2
      rw [mxy_factored]
      rw [show vertex 3 0 - vertex 0 0 = 0 from hd0,
        show vertex 3 1 - vertex 0 1 = 0 from hd1]
      ring
  · rintro ⟨hb2, hc2, hd2⟩
    have hxz1 : mxz (vertex 0) (vertex 1) (vertex 3) = 0 := by
      rw [mxz_factored, hb2, hd2]; ring
    have hyz1 : myz (vertex 0) (vertex 1) (vertex 3) = 0 := by
      rw [myz_factored, hb2, hd2]; ring
    have hxz2 : mxz (vertex 0) (vertex 3) (vertex 2) = 0 := by
      rw [mxz_factored, hc2, hd2]; ring
    have hyz2 : myz (vertex 0) (vertex 3) (vertex 2) = 0 := by
      rw [myz_factored, hc2, hd2]; ring
    have he1 := (triProj_eq_triReal_iff (vertex 0) (vertex 1) (vertex 3)).mpr
      ⟨hxz1, hyz1⟩
    have he2 := (triProj_eq_triReal_iff (vertex 0) (vertex 3) (vertex 2)).mpr
      ⟨hxz2, hyz2⟩
    rw [aProj, aReal, he1, he2]

/-- The horizontal unit square face used as the witness of C7: vertices
in deal.II face order (0,0,0), (1,0,0), (0,1,0), (1,1,0). -/
noncomputable def squareFace : ℕ → Pt 3 := fun n =>
  if n = 0 then ![0, 0, 0]
  else if n = 1 then ![1, 0, 0]
  else if n = 2 then ![0, 1, 0]
  else ![1, 1, 0]

theorem squareFace_aReal : aReal squareFace = 1 := by
  have h1 : mxy (squareFace 0) (squareFace 1) (squareFace 3) = 1 := by
    norm_num [mxy, squareFace]
  have h2 : mxz (squareFace 0) (squareFace 1) (squareFace 3) = 0 := by
    norm_num [mxz, squareFace]
  have h3 : myz (squareFace 0) (squareFace 1) (squareFace 3) = 0 := by
    norm_num [myz, squareFace]
  have h4 : mxy (squareFace 0) (squareFace 3) (squareFace 2) = 1 := by
    norm_num [mxy, squareFace]
  have h5 : mxz (squareFace 0) (squareFace 3) (squareFace 2) = 0 := by
    norm_num [mxz, squareFace]
  have h6 : myz (squareFace 0) (squareFace 3) (squareFace 2) = 0 := by
    norm_num [myz, squareFace]
  rw [aReal, triReal, triReal, h1, h2, h3, h4, h5, h6]
  norm_num [Real.sqrt_one]

theorem squareFace_aProj : aProj squareFace = 1 := by
  have h1 : mxy (squareFace 0) (squareFace 1) (squareFace 3) = 1 := by
    norm_num [mxy, squareFace]
  have h4 : mxy (squareFace 0) (squareFace 3) (squareFace 2) = 1 := by
    norm_num [mxy, squareFace]
  rw [aProj, triProj, triProj, h1, h4]
  rw [show |(0.5 : ℝ) * 1| = 0.5 from by rw [abs_of_pos] <;> norm_num]
  norm_num

/-- Witness for C7 at a concrete input: the horizontal unit square face
has positive true and projected area and weight exactly 1. -/
theorem recharge_weight_range_witness :
    recharge_weight squareFace = some (aProj squareFace / aReal squareFace) ∧
      0 < aProj squareFace / aReal squareFace ∧
      aProj squareFace / aReal squareFace ≤ 1 ∧
      (aProj squareFace / aReal squareFace = 1 ↔
        (squareFace 1 2 = squareFace 0 2 ∧ squareFace 2 2 = squareFace 0 2 ∧
          squareFace 3 2 = squareFace 0 2)) :=
  recharge_weight_range squareFace
    (by rw [squareFace_aReal]; norm_num)
    (by rw [squareFace_aProj]; norm_num)

/-! ## Structured adjacency table: get_connected_indices -/

/-- get_connected_indices: the list of local node indices connected to
node ii of the reference element of dimension dim.  The boolean flag
return_all selecting the full edge-adjacency tables is a local constant
false inside the function, so only the single vertical-neighbor tables
are observable; every index without a matching branch, and every
dimension other than 2 and 3, leaves the output vector empty. -/
def get_connected_indices (dim : ℕ) (ii : ℤ) : List ℤ :=
  let return_all := false
  if dim = 2 then
    if return_all then
      if ii = 0 then [1, 2]
      else if ii = 1 then [0, 3]
      else if ii = 2 then [0, 3]
      else if ii = 3 then [1, 2]
      else []
    else
      if ii = 0 then [2]
      else if ii = 1 then [3]
      else if ii = 2 then [0]
      else if ii = 3 then [1]
      else []
  else if dim = 3 then
    if return_all then
      if ii = 0 then [1, 2, 4]
      else if ii = 1 then [0, 3, 5]
      else if ii = 2 then [0, 3, 6]
      else if ii = 3 then [1, 2, 7]
      else if ii = 4 then [0, 5, 6]
      else if ii = 5 then [1, 4, 7]
      else if ii = 6 then [2, 4, 7]
      else if ii = 7 then [3, 5, 6]
      else []
    else
      if ii = 0 then [4]
      else if ii = 1 then [5]
      else if ii = 2 then [6]
      else if ii = 3 then [7]
      else if ii = 4 then [0]
      else if ii = 5 then [1]
      else if ii = 6 then [2]
      else if ii = 7 then [3]
      else []
  else []

/-- For an invalid node index or an unsupported dimension the lookup
returns the empty list. -/
theorem get_connected_invalid_aux (dim : ℕ) (ii : ℤ)
    (h : ¬((dim = 2 ∨ dim = 3) ∧ 0 ≤ ii ∧ ii < 2 ^ dim)) :
    get_connected_indices dim ii = [] := by
  by_cases hd2 : dim = 2
  · subst hd2
    have h4 : ¬(0 ≤ ii ∧ ii < 4) := by
      intro hc
      exact h ⟨Or.inl rfl, hc.1, by norm_num; omega⟩
    norm_num [get_connected_indices]
    split_ifs <;> first | rfl | omega
  · by_cases hd3 : dim = 3
    · subst hd3
      have h8 : ¬(0 ≤ ii ∧ ii < 8) := by
        intro hc
        exact h ⟨Or.inr rfl, hc.1, by norm_num; omega⟩
      norm_num [get_connected_indices]
      split_ifs <;> first | rfl | omega
    · simp [get_connected_indices, hd2, hd3]

/-- For every valid node index of a supported dimension the lookup
returns exactly one neighbor. -/
theorem get_connected_valid_aux (dim : ℕ) (ii : ℤ)
    (h : (dim = 2 ∨ dim = 3) ∧ 0 ≤ ii ∧ ii < 2 ^ dim) :
    ∃ j, get_connected_indices dim ii = [j] := by
  obtain ⟨hdim, h0, h1⟩ := h
  rcases hdim with rfl | rfl
  · norm_num at h1
    interval_cases ii <;> exact ⟨_, rfl⟩
  · norm_num at h1
    interval_cases ii <;> exact ⟨_, rfl⟩

/-- C8: the primary-axis adjacency lookup is an involution: in dimension
2 or 3, for every node index in range, if looking up i yields the single
neighbor j then looking up j yields the single neighbor i. -/
theorem get_connected_indices_involution (dim : ℕ) (i j : ℤ)
    (hdim : dim = 2 ∨ dim = 3) (h0 : 0 ≤ i) (h1 : i < 2 ^ dim)
    (hij : get_connected_indices dim i = [j]) :
    get_connected_indices dim j = [i] := by
  rcases hdim with rfl | rfl
  · norm_num at h1
    interval_cases i <;>
      (simp [get_connected_indices] at hij; subst hij; decide)
  · norm_num at h1
    interval_cases i <;>
      (simp [get_connected_indices] at hij; subst hij; decide)

/-- Witness for C8 at a concrete input: node 0 of the quadrilateral maps
to node 2, and node 2 maps back to node 0. -/
theorem get_connected_indices_involution_witness :
    get_connected_indices 2 2 = [0] :=
  get_connected_indices_involution 2 0 2 (Or.inl rfl) (by norm_num)
    (by norm_num) (by decide)

/-- C9 counterexample: for an out-of-range index (dim 2, node 4) and for
an unsupported dimension (dim 5, node 0) the lookup does not fail with an
error: it returns normally, with the empty list. -/
theorem get_connected_indices_no_error_cex :
    get_connected_indices 2 4 = [] ∧ get_connected_indices 5 0 = [] := by
  constructor <;> decide

/-- C9 (amended): for a node index outside the valid range or a dimension
outside two and three, get_connected_indices returns normally with the
empty list rather than signaling an error; the empty result is still
distinguishable from every valid lookup, which is never empty. -/
theorem get_connected_indices_invalid_empty (dim : ℕ) (ii : ℤ) :
    (¬((dim = 2 ∨ dim = 3) ∧ 0 ≤ ii ∧ ii < 2 ^ dim) →
        get_connected_indices dim ii = []) ∧
      (((dim = 2 ∨ dim = 3) ∧ 0 ≤ ii ∧ ii < 2 ^ dim) →
        get_connected_indices dim ii ≠ []) := by
  refine ⟨get_connected_invalid_aux dim ii, fun h => ?_⟩
  obtain ⟨j, hj⟩ := get_connected_valid_aux dim ii h
  rw [hj]
  simp

/-- Witness for C9 at a concrete input: dimension 3 with the out-of-range
node index 9 yields the empty list. -/
theorem get_connected_indices_invalid_empty_witness :
    get_connected_indices 3 9 = [] :=
  (get_connected_indices_invalid_empty 3 9).1 (by norm_num)

/-- C10: with the full-adjacency flag a hardcoded constant false, the
observable behavior of get_connected_indices is the primary-axis table:
a single neighbor for every valid index of dimension 2 or 3, and the
empty list for every other combination of dimension and index. -/
theorem get_connected_indices_single (dim : ℕ) (ii : ℤ) :
    (((dim = 2 ∨ dim = 3) ∧ 0 ≤ ii ∧ ii < 2 ^ dim) →
        ∃ j, get_connected_indices dim ii = [j]) ∧
      (¬((dim = 2 ∨ dim = 3) ∧ 0 ≤ ii ∧ ii < 2 ^ dim) →
        get_connected_indices dim ii = []) :=
  ⟨get_connected_valid_aux dim ii, get_connected_invalid_aux dim ii⟩

/-- Witness for C10 at a concrete input: node 5 of the hexahedron has
exactly one vertical neighbor. -/
theorem get_connected_indices_single_witness :
    ∃ j, get_connected_indices 3 5 = [j] :=
  (get_connected_indices_single 3 5).1 ⟨Or.inr rfl, by norm_num, by norm_num⟩

end NPSAT
